import Mathlib

/-!
# traffic: extraction, filtering and grouping of traffic incidents

A shallow embedding of `traffic.go` and the properties of its decoder
(`parseFeed`) and of the filter-and-group loop of `main`.

Modelling choices:
* a Go string is a `List Char`, the sequence of its runes;
* the map `roads` is a function from keys to optional values, `none` for a
  name that is not a key, so that the iteration order of a Go map plays no
  part;
* the three regular expressions of `main` are written in an abstract syntax
  and run by a backtracking matcher that lists the matches in the preference
  order of Go's `regexp` package (leftmost first, non-greedy repetitions
  shortest first);
* of the standard library, `strings.ReplaceAll`, `strings.TrimSpace` and
  `unicode.IsSpace` are written out; `xml.Unmarshal` is the decoding of the
  struct tags applied to the `item` elements that a parameter reads from the
  bytes; `time.Parse` with the layout RFC1123 is its first step, the week-day
  lookup, followed by a parameter for the rest of the layout;
* `parseFeed` returns the pair Go returns, the slice and the error.
-/

namespace Traffic

/-! ## Regular expressions (the fragment of RE2 syntax used by `main`) -/

/-- Abstract syntax of the regular expressions compiled in `main`. -/
inductive Regex where
  /-- The empty expression. -/
  | empty : Regex
  /-- One literal character. -/
  | lit : Char → Regex
  /-- The dot: any character except the newline (no `s` flag is set). -/
  | any : Regex
  /-- Concatenation. -/
  | cat : Regex → Regex → Regex
  /-- Non-greedy repetition, zero or more times: `r*?`. -/
  | starLazy : Regex → Regex
  /-- Non-greedy repetition, one or more times: `r+?`. -/
  | plusLazy : Regex → Regex
  /-- Capturing group `(r)`; the expressions of `main` have exactly one. -/
  | group : Regex → Regex

/-- One way of matching an expression at the start of an input: the text
consumed, the text of the capturing group (when the group took part) and the
input that remains. -/
structure Result where
  consumed : List Char
  cap : Option (List Char)
  rest : List Char
  deriving DecidableEq

/-- Sequencing of two partial matches: `b` was obtained on the rest of `a`. -/
def Result.andThen (a b : Result) : Result :=
  { consumed := a.consumed ++ b.consumed
    cap := match b.cap with
      | some c => some c
      | none => a.cap
    rest := b.rest }

/-- The match that consumes nothing. -/
def Result.nothing (s : List Char) : Result :=
  { consumed := [], cap := none, rest := s }

/-- The iterations of a non-greedy repetition, in preference order: stop
first, then one more iteration.  The first argument bounds the number of
iterations; callers pass the length of the input. -/
def starLoop (step : List Char → List Result) : Nat → List Char → List Result
  | 0, s => [Result.nothing s]
  | n + 1, s =>
    Result.nothing s ::
      (step s).flatMap fun a => (starLoop step n a.rest).map fun b => a.andThen b

/-- All the matches of an expression at the start of the input, in the
preference order of a backtracking matcher. -/
def Regex.run : Regex → List Char → List Result
  | .empty, s => [Result.nothing s]
  | .lit c, s =>
    match s with
    | x :: xs => if x = c then [{ consumed := [x], cap := none, rest := xs }] else []
    | [] => []
  | .any, s =>
    match s with
    | x :: xs => if x = '\n' then [] else [{ consumed := [x], cap := none, rest := xs }]
    | [] => []
  | .cat r q, s => (run r s).flatMap fun a => (run q a.rest).map fun b => a.andThen b
  | .starLazy r, s => starLoop (run r) s.length s
  | .plusLazy r, s =>
    (run r s).flatMap fun a => (starLoop (run r) a.rest.length a.rest).map fun b => a.andThen b
  | .group r, s => (run r s).map fun a => { a with cap := some a.consumed }

/-- The expression matching a literal text. -/
def Regex.str : List Char → Regex
  | [] => .empty
  | c :: cs => .cat (.lit c) (str cs)

/-- Leftmost-first search: the preferred match at the first position of the
input where the expression matches at all. -/
def Regex.search (re : Regex) : List Char → Option Result
  | [] => (re.run []).head?
  | c :: s =>
    match (re.run (c :: s)).head? with
    | some r => some r
    | none => search re s

/-- The method `(*Regexp).FindStringSubmatch`: `none` is Go's `nil`; otherwise
the slice holds the matched text and the text of group 1 (empty when the
group did not take part). -/
def Regex.FindStringSubmatch (re : Regex) (s : List Char) : Option (List (List Char)) :=
  (re.search s).map fun r => [r.consumed, r.cap.getD []]

/-- The method `(*Regexp).MatchString`. -/
def Regex.MatchString (re : Regex) (s : List Char) : Bool :=
  (re.search s).isSome

/-- The pattern `Location : The (.+?) ` (line 83). -/
def locationRegexp : Regex :=
  .cat (.str "Location : The ".toList) (.cat (.group (.plusLazy .any)) (.lit ' '))

/-- The pattern `Status : (.+?)\.` (line 84). -/
def statusRegexp : Regex :=
  .cat (.str "Status : ".toList) (.cat (.group (.plusLazy .any)) (.lit '.'))

/-- The pattern `Reason : .*?Roadworks.*?\n` (line 85). -/
def roadworksRegexp : Regex :=
  .cat (.str "Reason : ".toList)
    (.cat (.starLazy .any) (.cat (.str "Roadworks".toList) (.cat (.starLazy .any) (.lit '\n'))))

/-! ## Strings -/

/-- Worker of `ReplaceAll`: the counter is the number of characters of the
current occurrence of `old` that are still to be skipped. -/
def replaceFrom (old new : List Char) : Nat → List Char → List Char
  | _, [] => []
  | skip + 1, _ :: s => replaceFrom old new skip s
  | 0, c :: s =>
    if old.isPrefixOf (c :: s) then new ++ replaceFrom old new (old.length - 1) s
    else c :: replaceFrom old new 0 s

/-- The function `strings.ReplaceAll` for a non-empty `old`: the
non-overlapping occurrences of `old`, found from the left, become `new`. -/
def ReplaceAll (s old new : List Char) : List Char :=
  replaceFrom old new 0 s

/-- The function `unicode.IsSpace`: the characters with the Unicode White
Space property. -/
def isSpace (c : Char) : Bool :=
  c = '\t' || c = '\n' || c = '\x0b' || c = '\x0c' || c = '\r' || c = ' ' ||
  c = '\u0085' || c = '\u00a0' || c = '\u1680' ||
  (0x2000 ≤ c.toNat && c.toNat ≤ 0x200a) ||
  c = '\u2028' || c = '\u2029' || c = '\u202f' || c = '\u205f' || c = '\u3000'

/-- The function `strings.TrimSpace`: leading and trailing white space
removed. -/
def TrimSpace (s : List Char) : List Char :=
  ((s.dropWhile isSpace).reverse.dropWhile isSpace).reverse

/-! ## The feed decoder -/

/-- The struct `entry` (lines 41-46); `Time` stands for `time.Time`. -/
structure entry (Time : Type) where
  EntryTitle : List Char
  Link : List Char
  Description : List Char
  Time : Time

/-- The struct `item` (lines 52-57). -/
structure item where
  Title : List Char
  PubDate : List Char
  Link : List Char
  Description : List Char
  deriving DecidableEq

/-- The struct `rss` (lines 48-50). -/
structure rss where
  Items : List item
  deriving DecidableEq

/-- An `item` element of a well-formed document, as `encoding/xml` presents
it to the decoder: its child elements in document order, each with its name
and its character data. -/
structure XmlItem where
  children : List (List Char × List Char)
  deriving DecidableEq

/-- The value `encoding/xml` leaves in a string field tagged with an element
name: the character data of the last child of that name, and the zero value
(the empty string) when there is no such child. -/
def decodeField (name : List Char) (x : XmlItem) : List Char :=
  match (x.children.filter fun ch => ch.1 = name).getLast? with
  | some ch => ch.2
  | none => []

/-- Decoding of one `item` element into the struct `item`, following the
field tags of lines 53-56. -/
def decodeItem (x : XmlItem) : item :=
  { Title := decodeField "title".toList x
    PubDate := decodeField "pubDate".toList x
    Link := decodeField "link".toList x
    Description := decodeField "description".toList x }

/-- The call `xml.Unmarshal(feed, &f)` for `f` of type `rss`.  The reading of
the bytes into the `channel>item` elements is left to `readItems`; it fails
on a document that is not well formed. -/
def Unmarshal {XmlError : Type} (readItems : List Char → Except XmlError (List XmlItem))
    (feed : List Char) : Except XmlError rss :=
  match readItems feed with
  | .error e => .error e
  | .ok xs => .ok { Items := xs.map decodeItem }

/-- The table `shortDayNames` of package `time`. -/
def shortDayNames : List (List Char) :=
  ["Sun".toList, "Mon".toList, "Tue".toList, "Wed".toList, "Thu".toList, "Fri".toList,
    "Sat".toList]

/-- The function `match` of package `time`: equality of two texts of the
same length, ignoring the case of ASCII letters. -/
def matchFold : List Char → List Char → Bool
  | c1 :: s1, c2 :: s2 =>
    if c1 = c2 then matchFold s1 s2
    else
      let l1 := c1.toNat ||| 0x20
      let l2 := c2.toNat ||| 0x20
      if l1 ≠ l2 ∨ l1 < 'a'.toNat ∨ l1 > 'z'.toNat then false else matchFold s1 s2
  | _, _ => true

/-- The function `lookup` of package `time`: the input with the first name
of the table that starts it removed, or `none` (the error `errBad`). -/
def lookup : List (List Char) → List Char → Option (List Char)
  | [], _ => none
  | v :: tab, val =>
    if val.length ≥ v.length ∧ matchFold (val.take v.length) v then some (val.drop v.length)
    else lookup tab val

/-- The call `time.Parse(time.RFC1123, value)`.  The layout
`Mon, 02 Jan 2006 15:04:05 MST` starts with the abbreviated week day, which
`Parse` reads with `lookup`; the reading of the rest of the layout is left to
`afterWeekDay`.  An error carries the value that was being parsed. -/
def timeParse {Time : Type} (afterWeekDay : List Char → Except (List Char) Time)
    (value : List Char) : Except (List Char) Time :=
  match lookup shortDayNames value with
  | none => .error value
  | some value1 => afterWeekDay value1

/-- The errors `parseFeed` builds with `fmt.Errorf`. -/
inductive FeedError (XmlError : Type) where
  /-- The text `unmarshaling rss feed: %w`. -/
  | unmarshaling : XmlError → FeedError XmlError
  /-- The text `parsing pubDate: %w`. -/
  | parsingPubDate : List Char → FeedError XmlError

/-- The loop of `parseFeed` (lines 65-77) on the items still to be read and
the slice `ret` built so far.  The result is the pair that Go returns: the
slice (`[]` is `nil`) and the error (`none` is `nil`). -/
def parseItems {Time XmlError : Type} (afterWeekDay : List Char → Except (List Char) Time) :
    List item → List (entry Time) → List (entry Time) × Option (FeedError XmlError)
  | [], ret => (ret, none)
  | it :: items, ret =>
    match timeParse afterWeekDay (TrimSpace it.PubDate) with
    | .error err => ([], some (.parsingPubDate err))
    | .ok date =>
      parseItems afterWeekDay items
        (ret ++ [{ EntryTitle := it.Title, Link := it.Link, Description := it.Description,
                   Time := date }])

/-- The function `parseFeed` (lines 59-78). -/
def parseFeed {Time XmlError : Type} (readItems : List Char → Except XmlError (List XmlItem))
    (afterWeekDay : List Char → Except (List Char) Time) (feed : List Char) :
    List (entry Time) × Option (FeedError XmlError) :=
  match Unmarshal readItems feed with
  | .error err => ([], some (.unmarshaling err))
  | .ok f => parseItems afterWeekDay f.Items []

/-! ## The grouping loop of `main` -/

/-- The map `roads` of `main`, from a road name to the formatted
descriptions of its incidents; `none` for a name that is not a key. -/
abbrev Roads := List Char → Option (List (List Char))

/-- The empty map made by `make` (line 114). -/
def Roads.make : Roads := fun _ => none

/-- The index expression `roads[k]`: the zero value (the nil slice) for a name
that is not a key. -/
def Roads.index (roads : Roads) (k : List Char) : List (List Char) :=
  (roads k).getD []

/-- The assignment `roads[k] = v`. -/
def Roads.assign (roads : Roads) (k : List Char) (v : List (List Char)) : Roads :=
  fun k1 => if k1 = k then some v else roads k1

/-- One iteration of the loop of lines 115-126 on the entry with the given
description. -/
def groupStep (roads : Roads) (Description : List Char) : Roads :=
  match statusRegexp.FindStringSubmatch Description with
  | none => roads
  | some status =>
    if status.getD 1 [] ≠ "Currently Active".toList ∨
        roadworksRegexp.MatchString Description = true then roads
    else
      match locationRegexp.FindStringSubmatch Description with
      | none => roads
      | some location =>
        roads.assign (location.getD 1 [])
          (roads.index (location.getD 1 []) ++
            [ReplaceAll Description "\n".toList "<br>".toList])

/-- The grouping loop of `main` (lines 114-126): the map `roads` after the
loop has run over the entries. -/
def group {Time : Type} (entries : List (entry Time)) : Roads :=
  entries.foldl (fun roads e => groupStep roads e.Description) Roads.make

/-! ## Definitions used to state the properties -/

/-- The splits of a text after a prefix that stays on one line, shortest
prefix first. -/
def lazyAny : List Char → List Result
  | [] => [Result.nothing []]
  | x :: xs =>
    Result.nothing (x :: xs) ::
      if x = '\n' then [] else (lazyAny xs).map fun b => Result.andThen ⟨[x], none, xs⟩ b

/-- The cuts of a text at a character `c` after a prefix that stays on one
line: the text before the cut and the text after it, shortest prefix first. -/
def stops (c : Char) : List Char → List (List Char × List Char)
  | [] => []
  | y :: ys =>
    (if y = c then [([], ys)] else []) ++
      if y = '\n' then [] else (stops c ys).map fun uv => (y :: uv.1, uv.2)

/-- The shape shared by the location and the status pattern: a label `L`, the
group `(.+?)` and a closing character `c`. -/
def fieldRegexp (L : List Char) (c : Char) : Regex :=
  .cat (.str L) (.cat (.group (.plusLazy .any)) (.lit c))

/-- The text `d` has, after the prefix `p`, the label `L`, then the non-empty
text `t` that stays on one line, then the character `c`. -/
def FieldAt (L : List Char) (c : Char) (d p t : List Char) : Prop :=
  ∃ q, d = p ++ L ++ t ++ c :: q ∧ t ≠ [] ∧ '\n' ∉ t

/-- The text of group 1 of the first match: the value `m[1]` for
`m := re.FindStringSubmatch(d)`, when `m` is not nil. -/
def Regex.capture (re : Regex) (d : List Char) : Option (List Char) :=
  (re.FindStringSubmatch d).map fun m => m.getD 1 []

/-- The expression has a match at the start of `s` that leaves `q`. -/
def Accepts (re : Regex) (s q : List Char) : Prop :=
  ∃ r ∈ re.run s, r.rest = q

/-- The text has a line that ends in a newline and holds `Reason : ` and,
later, `Roadworks`. -/
def RoadworksLine (d : List Char) : Prop :=
  ∃ p u v q, d = p ++ "Reason : ".toList ++ u ++ "Roadworks".toList ++ v ++ '\n' :: q ∧
    '\n' ∉ u ∧ '\n' ∉ v

/-- The formatting of line 125: every newline becomes `<br>`, every other
character stays. -/
def format (d : List Char) : List Char :=
  d.flatMap fun c => if c = '\n' then "<br>".toList else [c]

/-- The entry with description `d` passes the filter of lines 116-124 with
the location `k`: the status is `Currently Active`, the roadworks pattern
does not match and the location is `k`. -/
def Admitted (d k : List Char) : Prop :=
  statusRegexp.capture d = some "Currently Active".toList ∧
    roadworksRegexp.MatchString d = false ∧ locationRegexp.capture d = some k

instance (d k : List Char) : Decidable (Admitted d k) :=
  inferInstanceAs (Decidable (_ ∧ _ ∧ _))

/-- The wording of C8 and C9: the text between the first occurrence of the
label `L` and the next `c` after it; unset when no label is followed later by
a `c`. -/
def textAfterLabel (L : List Char) (c : Char) : List Char → Option (List Char)
  | [] => none
  | x :: xs =>
    if L <+: x :: xs then
      if c ∈ (x :: xs).drop L.length then
        some (((x :: xs).drop L.length).takeWhile fun y => y ≠ c)
      else none
    else textAfterLabel L c xs

/-- The wording of C3: the text has a line, a maximal run of characters
without a newline, in which `Reason : ` is followed later by `Roadworks`.
The line is `a ++ "Reason : " ++ u ++ "Roadworks" ++ b`; before it comes
nothing or a text ending in a newline, after it nothing or a newline. -/
def ReasonLineNamesRoadworks (d : List Char) : Prop :=
  ∃ p a u b q,
    d = p ++ (a ++ "Reason : ".toList ++ u ++ "Roadworks".toList ++ b) ++ q ∧
      '\n' ∉ a ++ "Reason : ".toList ++ u ++ "Roadworks".toList ++ b ∧
      (p = [] ∨ p.getLast? = some '\n') ∧ (q = [] ∨ q.head? = some '\n')

/-- The wording of C2: the description contains the text
`Status : Currently Active.`, has no line with `Reason : ` and later
`Roadworks`, and contains `Location : The X ` with `X` non-empty and free of
spaces. -/
def LooksActiveAt (d X : List Char) : Prop :=
  (∃ p q, d = p ++ "Status : Currently Active.".toList ++ q) ∧
    ¬ ReasonLineNamesRoadworks d ∧
    (∃ p q, d = p ++ "Location : The ".toList ++ X ++ ' ' :: q) ∧ X ≠ [] ∧ ' ' ∉ X

/-- The entry `parseFeed` builds from an item and its parsed date. -/
def toEntry {Time : Type} (it : item) (date : Time) : entry Time :=
  { EntryTitle := it.Title, Link := it.Link, Description := it.Description, Time := date }

/-! ## Properties of the matcher -/

theorem run_lit_cons (c x : Char) (xs : List Char) :
    (Regex.lit c).run (x :: xs) = if x = c then [⟨[x], none, xs⟩] else [] := by
  simp [Regex.run]

theorem run_any_cons (x : Char) (xs : List Char) :
    Regex.any.run (x :: xs) = if x = '\n' then [] else [⟨[x], none, xs⟩] := by
  simp [Regex.run]

theorem run_any_nil : Regex.any.run [] = [] := by
  simp [Regex.run]

theorem run_cat (r q : Regex) (s : List Char) :
    (Regex.cat r q).run s =
      (r.run s).flatMap fun a => (q.run a.rest).map fun b => a.andThen b := by
  simp [Regex.run]

theorem run_str (L s : List Char) :
    (Regex.str L).run s =
      if L <+: s then [{ consumed := L, cap := none, rest := s.drop L.length }] else [] := by
  induction L generalizing s with
  | nil => simp [Regex.str, Regex.run, Result.nothing]
  | cons c cs ih =>
    cases s with
    | nil => simp [Regex.str, Regex.run]
    | cons x xs =>
      simp only [Regex.str, run_cat, run_lit_cons]
      by_cases h : x = c
      · subst h
        by_cases h2 : cs <+: xs
        · simp [ih, Result.andThen, h2]
        · simp [ih, Result.andThen, h2]
      · have h3 : ¬ (c :: cs <+: x :: xs) := by
          rw [List.cons_prefix_cons]; intro h4; exact h h4.1.symm
        simp [h, h3]

theorem starLoop_any (n : Nat) (s : List Char) (h : s.length ≤ n) :
    starLoop (Regex.run .any) n s = lazyAny s := by
  induction n generalizing s with
  | zero =>
    cases s with
    | nil => simp [starLoop, lazyAny]
    | cons x xs => simp at h
  | succ n ih =>
    cases s with
    | nil => simp [starLoop, lazyAny, run_any_nil]
    | cons x xs =>
      have hx : xs.length ≤ n := by simpa using h
      simp only [starLoop, lazyAny, run_any_cons]
      by_cases hn : x = '\n'
      · simp [hn]
      · simp [hn, ih xs hx]

theorem run_starLazy (r : Regex) (s : List Char) :
    (Regex.starLazy r).run s = starLoop r.run s.length s := rfl

theorem run_plusLazy (r : Regex) (s : List Char) :
    (Regex.plusLazy r).run s =
      (r.run s).flatMap fun a =>
        (starLoop r.run a.rest.length a.rest).map fun b => a.andThen b := rfl

theorem run_group (r : Regex) (s : List Char) :
    (Regex.group r).run s = (r.run s).map fun a => { a with cap := some a.consumed } := rfl

theorem run_starLazy_any (s : List Char) : (Regex.starLazy .any).run s = lazyAny s := by
  rw [run_starLazy, starLoop_any _ _ (le_refl _)]

theorem mem_lazyAny (s : List Char) (b : Result) :
    b ∈ lazyAny s ↔ ∃ u, s = u ++ b.rest ∧ '\n' ∉ u ∧ b.consumed = u ∧ b.cap = none := by
  induction s generalizing b with
  | nil =>
    obtain ⟨bc, bp, br⟩ := b
    simp only [lazyAny, Result.nothing, List.mem_singleton, Result.mk.injEq]
    constructor
    · rintro ⟨rfl, rfl, rfl⟩; exact ⟨[], by simp⟩
    · rintro ⟨u, hu, -, hc, hp⟩
      have h1 := List.append_eq_nil.1 hu.symm
      exact ⟨hc.trans h1.1, hp, h1.2⟩
  | cons x xs ih =>
    obtain ⟨bc, bp, br⟩ := b
    simp only [lazyAny, List.mem_cons]
    constructor
    · rintro (h | h)
      · simp [Result.nothing] at h
        obtain ⟨rfl, rfl, rfl⟩ := h
        exact ⟨[], by simp⟩
      · by_cases hn : x = '\n'
        · simp [hn] at h
        · simp only [hn, if_false, List.mem_map] at h
          obtain ⟨b1, hb1, hb⟩ := h
          obtain ⟨u, hu, hnl, hc, hp⟩ := (ih b1).1 hb1
          simp [Result.andThen, hp] at hb
          obtain ⟨rfl, rfl, rfl⟩ := hb
          refine ⟨x :: u, by simp [hu], ?_, by simp [hc], rfl⟩
          simp [hnl, Ne.symm hn]
    · rintro ⟨u, hu, hnl, hc, hp⟩
      subst hc hp
      cases bc with
      | nil => left; simp [Result.nothing] at hu ⊢; exact hu.symm
      | cons y ys =>
        simp at hu
        obtain ⟨rfl, rfl⟩ := hu
        have hx : ¬ x = '\n' := by
          intro h; apply hnl; simp [h]
        right
        simp only [hx, if_false, List.mem_map]
        refine ⟨⟨ys, none, br⟩, (ih _).2 ⟨ys, rfl, ?_, rfl, rfl⟩, by simp [Result.andThen]⟩
        intro h; apply hnl; simp [h]

theorem lazyAny_then_lit {γ : Type} (c : Char) (s : List Char) (K : List Char → Result → γ) :
    ((lazyAny s).flatMap fun b => ((Regex.lit c).run b.rest).map fun e => K b.consumed e) =
      (stops c s).map fun uv => K uv.1 ⟨[c], none, uv.2⟩ := by
  induction s generalizing K with
  | nil => simp [lazyAny, stops, Result.nothing, Regex.run]
  | cons y ys ih =>
    simp only [lazyAny, stops, List.flatMap_cons, Result.nothing, run_lit_cons, List.map_append]
    congr 1
    · by_cases hy : y = c <;> simp [hy]
    · by_cases hn : y = '\n'
      · simp [hn]
      · simp only [hn, if_false, List.flatMap_map, List.map_map]
        exact ih fun u e => K (y :: u) e

theorem run_capture_tail (c x : Char) (xs : List Char) :
    (Regex.cat (.group (.plusLazy .any)) (.lit c)).run (x :: xs) =
      if x = '\n' then []
      else (stops c xs).map fun uv => ⟨x :: uv.1 ++ [c], some (x :: uv.1), uv.2⟩ := by
  rw [run_cat, run_group, run_plusLazy, run_any_cons]
  by_cases hn : x = '\n'
  · simp [hn]
  · simp only [hn, if_false, List.flatMap_cons, List.flatMap_nil, List.append_nil,
      starLoop_any _ _ (le_refl _), List.map_map, List.flatMap_map]
    exact lazyAny_then_lit c xs fun u e =>
      (⟨x :: u ++ e.consumed,
        match e.cap with
        | some c => some c
        | none => some (x :: u), e.rest⟩ : Result)

theorem run_capture_tail_nil (c : Char) :
    (Regex.cat (.group (.plusLazy .any)) (.lit c)).run [] = [] := by
  rw [run_cat, run_group, run_plusLazy, run_any_nil]
  rfl

theorem mem_stops (c : Char) (s u v : List Char) :
    (u, v) ∈ stops c s ↔ s = u ++ c :: v ∧ '\n' ∉ u := by
  induction s generalizing u with
  | nil => simp [stops]
  | cons y ys ih =>
    simp only [stops, List.mem_append]
    constructor
    · rintro (h | h)
      · by_cases hy : y = c
        · simp [hy] at h
          obtain ⟨rfl, rfl⟩ := h
          simp [hy]
        · simp [hy] at h
      · by_cases hn : y = '\n'
        · simp [hn] at h
        · simp only [hn, if_false, List.mem_map, Prod.mk.injEq, Prod.exists] at h
          obtain ⟨u1, v1, h1, rfl, rfl⟩ := h
          obtain ⟨h2, h3⟩ := (ih u1).1 h1
          refine ⟨by simp [h2], ?_⟩
          simp [h3, Ne.symm hn]
    · rintro ⟨h1, h2⟩
      cases u with
      | nil =>
        simp at h1
        left; simp [h1.1, h1.2]
      | cons z zs =>
        simp at h1
        obtain ⟨rfl, rfl⟩ := h1
        have hy : ¬ y = '\n' := by intro h; apply h2; simp [h]
        right
        simp only [hy, if_false, List.mem_map, Prod.mk.injEq, Prod.exists]
        refine ⟨zs, v, (ih zs).2 ⟨rfl, ?_⟩, rfl, rfl⟩
        intro h; apply h2; simp [h]

theorem head?_stops (c : Char) (s u v : List Char) :
    (stops c s).head? = some (u, v) ↔ s = u ++ c :: v ∧ '\n' ∉ u ∧ c ∉ u := by
  induction s generalizing u with
  | nil => simp [stops]
  | cons y ys ih =>
    simp only [stops]
    by_cases hy : y = c
    · subst hy
      simp only [if_true, List.singleton_append, List.head?_cons, Option.some.injEq,
        Prod.mk.injEq]
      constructor
      · rintro ⟨rfl, rfl⟩; simp
      · rintro ⟨h1, -, h3⟩
        cases u with
        | nil => simpa using h1
        | cons z zs =>
          simp at h1
          exact absurd (by simp [h1.1]) h3
    · simp only [hy, if_false, List.nil_append]
      by_cases hn : y = '\n'
      · simp only [hn, if_true, List.head?_nil]
        constructor
        · intro h; cases h
        · rintro ⟨h1, h2, -⟩
          cases u with
          | nil => simp at h1; exact absurd (hn.trans h1.1) hy
          | cons z zs =>
            simp at h1
            exact absurd (by simp [← h1.1]) h2
      · simp only [hn, if_false, List.head?_map]
        cases u with
        | nil =>
          constructor
          · intro h
            cases hs : (stops c ys).head? with
            | none => simp [hs] at h
            | some w => simp [hs] at h
          · rintro ⟨h1, -, -⟩
            simp at h1; exact absurd h1.1 hy
        | cons z zs =>
          constructor
          · intro h
            cases hs : (stops c ys).head? with
            | none => simp [hs] at h
            | some w =>
              obtain ⟨w1, w2⟩ := w
              simp [hs] at h
              obtain ⟨⟨rfl, rfl⟩, rfl⟩ := h
              obtain ⟨h1, h2, h3⟩ := (ih w1).1 hs
              refine ⟨by simp [h1], ?_, ?_⟩
              · simp [h2, Ne.symm hn]
              · simp [h3, Ne.symm hy]
          · rintro ⟨h1, h2, h3⟩
            simp at h1
            obtain ⟨rfl, rfl⟩ := h1
            have := (ih zs).2 ⟨rfl, fun h => h2 (by simp [h]), fun h => h3 (by simp [h])⟩
            simp [this]

theorem stops_eq_nil (c : Char) (s : List Char) :
    stops c s = [] ↔ ¬ ∃ u v, s = u ++ c :: v ∧ '\n' ∉ u := by
  constructor
  · rintro h ⟨u, v, h1, h2⟩
    have := (mem_stops c s u v).2 ⟨h1, h2⟩
    simp [h] at this
  · intro h
    rw [List.eq_nil_iff_forall_not_mem]
    rintro ⟨u, v⟩ hm
    exact h ⟨u, v, (mem_stops c s u v).1 hm⟩

theorem search_eq_none (re : Regex) (d : List Char) :
    re.search d = none ↔ ∀ p s, d = p ++ s → re.run s = [] := by
  induction d with
  | nil =>
    simp only [Regex.search, List.head?_eq_none_iff]
    constructor
    · intro h p s hps
      have := List.append_eq_nil.1 hps.symm
      rw [this.2]; exact h
    · intro h; exact h [] [] rfl
  | cons x xs ih =>
    simp only [Regex.search]
    cases hh : (re.run (x :: xs)).head? with
    | some r =>
      simp only [false_iff, reduceCtorEq]
      intro h
      have := h [] (x :: xs) rfl
      simp [this] at hh
    | none =>
      simp only [ih]
      constructor
      · intro h p s hps
        cases p with
        | nil => simp at hps; subst hps; simpa using hh
        | cons y ys =>
          simp at hps
          exact h ys s hps.2
      · intro h p s hps
        exact h (x :: p) s (by simp [hps])

theorem search_eq_some (re : Regex) (d : List Char) (r : Result) :
    re.search d = some r ↔
      ∃ p s, d = p ++ s ∧ (re.run s).head? = some r ∧
        ∀ p1 s1, d = p1 ++ s1 → p1.length < p.length → re.run s1 = [] := by
  induction d with
  | nil =>
    simp only [Regex.search]
    constructor
    · intro h; exact ⟨[], [], rfl, h, by simp⟩
    · rintro ⟨p, s, hps, h, -⟩
      have := List.append_eq_nil.1 hps.symm
      rw [this.2] at h; exact h
  | cons x xs ih =>
    simp only [Regex.search]
    cases hh : (re.run (x :: xs)).head? with
    | some r1 =>
      simp only [Option.some.injEq]
      constructor
      · rintro rfl; exact ⟨[], x :: xs, rfl, hh, by simp⟩
      · rintro ⟨p, s, hps, h, hmin⟩
        cases p with
        | nil =>
          simp at hps; subst hps
          rw [hh] at h; simpa using h
        | cons y ys =>
          have := hmin [] (x :: xs) rfl (by simp)
          simp [this] at hh
    | none =>
      simp only [ih]
      constructor
      · rintro ⟨p, s, hps, h, hmin⟩
        refine ⟨x :: p, s, by simp [hps], h, ?_⟩
        intro p1 s1 h1 hlt
        cases p1 with
        | nil => simp at h1; subst h1; simpa using hh
        | cons y ys =>
          simp at h1
          exact hmin ys s1 h1.2 (by simpa using hlt)
      · rintro ⟨p, s, hps, h, hmin⟩
        cases p with
        | nil =>
          simp at hps; subst hps
          rw [hh] at h; cases h
        | cons y ys =>
          simp at hps
          refine ⟨ys, s, hps.2, h, ?_⟩
          intro p1 s1 h1 hlt
          exact hmin (x :: p1) s1 (by simp [h1]) (by simpa using hlt)

theorem locationRegexp_eq : locationRegexp = fieldRegexp "Location : The ".toList ' ' := rfl

theorem statusRegexp_eq : statusRegexp = fieldRegexp "Status : ".toList '.' := rfl

theorem run_field (L : List Char) (c : Char) (s : List Char) :
    (fieldRegexp L c).run s =
      if L <+: s then
        match s.drop L.length with
        | [] => []
        | x :: xs =>
          if x = '\n' then []
          else (stops c xs).map fun uv => ⟨L ++ (x :: uv.1 ++ [c]), some (x :: uv.1), uv.2⟩
      else [] := by
  rw [fieldRegexp, run_cat, run_str]
  by_cases hL : L <+: s
  · simp only [hL, if_true, List.flatMap_cons, List.flatMap_nil, List.append_nil]
    cases hs : s.drop L.length with
    | nil => simp [run_capture_tail_nil]
    | cons x xs =>
      simp only [run_capture_tail]
      by_cases hn : x = '\n'
      · simp [hn]
      · simp [hn, Result.andThen]
  · simp [hL]

theorem run_field_eq_nil (L : List Char) (c : Char) (s : List Char) :
    (fieldRegexp L c).run s = [] ↔ ¬ ∃ t q, s = L ++ t ++ c :: q ∧ t ≠ [] ∧ '\n' ∉ t := by
  rw [run_field]
  constructor
  · rintro h ⟨t, q, rfl, ht, hn⟩
    cases t with
    | nil => exact ht rfl
    | cons x xs =>
      have hx : ¬ x = '\n' := by intro h1; apply hn; simp [h1]
      have hm : (xs, q) ∈ stops c (xs ++ c :: q) :=
        (mem_stops c _ xs q).2 ⟨rfl, fun h1 => hn (by simp [h1])⟩
      simp [List.append_assoc, hx] at h
      rw [h] at hm
      simp at hm
  · intro h
    by_cases hL : L <+: s
    · simp only [hL, if_true]
      obtain ⟨s1, rfl⟩ := hL
      simp only [List.drop_left]
      cases s1 with
      | nil => rfl
      | cons x xs =>
        by_cases hn : x = '\n'
        · simp [hn]
        · simp only [hn, if_false, List.map_eq_nil_iff, stops_eq_nil]
          rintro ⟨u, v, rfl, hu⟩
          exact h ⟨x :: u, v, by simp, by simp, by simp [hu, Ne.symm hn]⟩
    · simp [hL]

theorem head?_run_field (L : List Char) (c : Char) (s : List Char) (r : Result) :
    ((fieldRegexp L c).run s).head? = some r ↔
      ∃ t q, s = L ++ t ++ c :: q ∧ t ≠ [] ∧ '\n' ∉ t ∧ c ∉ t.tail ∧
        r = ⟨L ++ t ++ [c], some t, q⟩ := by
  rw [run_field]
  constructor
  · intro h
    by_cases hL : L <+: s
    · simp only [hL, if_true] at h
      obtain ⟨s1, rfl⟩ := hL
      simp only [List.drop_left] at h
      cases s1 with
      | nil => simp at h
      | cons x xs =>
        by_cases hn : x = '\n'
        · simp [hn] at h
        · simp only [hn, if_false, List.head?_map] at h
          cases hs : (stops c xs).head? with
          | none => simp [hs] at h
          | some w =>
            obtain ⟨u, v⟩ := w
            simp only [hs, Option.map_some', Option.some.injEq] at h
            obtain ⟨h1, h2, h3⟩ := (head?_stops c xs u v).1 hs
            refine ⟨x :: u, v, by simp [h1], by simp, ?_, by simpa using h3, ?_⟩
            · simp [h2, Ne.symm hn]
            · rw [← h]; simp
    · simp [hL] at h
  · rintro ⟨t, q, rfl, ht, hn, hc, rfl⟩
    cases t with
    | nil => exact absurd rfl ht
    | cons x xs =>
      have hx : ¬ x = '\n' := by intro h1; apply hn; simp [h1]
      have hh : (stops c (xs ++ c :: q)).head? = some (xs, q) :=
        (head?_stops c _ xs q).2 ⟨rfl, fun h1 => hn (by simp [h1]), by simpa using hc⟩
      simp [List.append_assoc, hx, hh]

theorem capture_field_eq_some (L : List Char) (c : Char) (d t : List Char) :
    (fieldRegexp L c).capture d = some t ↔
      ∃ p, FieldAt L c d p t ∧ c ∉ t.tail ∧
        ∀ p1 t1, FieldAt L c d p1 t1 → p.length ≤ p1.length := by
  simp only [Regex.capture, Regex.FindStringSubmatch, Option.map_map, Option.map_eq_some',
    search_eq_some, Function.comp]
  constructor
  · rintro ⟨r, ⟨p, s, rfl, hh, hmin⟩, hr⟩
    obtain ⟨t1, q, rfl, ht, hn, hc, rfl⟩ := (head?_run_field L c s r).1 hh
    simp at hr
    subst hr
    refine ⟨p, ⟨q, by simp [List.append_assoc], ht, hn⟩, hc, ?_⟩
    rintro p1 t2 ⟨q2, h2, ht2, hn2⟩
    by_contra hlt
    have := hmin p1 (L ++ t2 ++ c :: q2) (by simpa [List.append_assoc] using h2) (by omega)
    exact (run_field_eq_nil L c _).1 this ⟨t2, q2, rfl, ht2, hn2⟩
  · rintro ⟨p, ⟨q, rfl, ht, hn⟩, hc, hmin⟩
    refine ⟨⟨L ++ t ++ [c], some t, q⟩,
      ⟨p, L ++ t ++ c :: q, by simp [List.append_assoc], ?_, ?_⟩, by simp⟩
    · exact (head?_run_field L c _ _).2 ⟨t, q, rfl, ht, hn, hc, rfl⟩
    · intro p1 s1 h1 hlt
      rw [run_field_eq_nil]
      rintro ⟨t2, q2, rfl, ht2, hn2⟩
      have := hmin p1 t2 ⟨q2, by simpa [List.append_assoc] using h1, ht2, hn2⟩
      omega

theorem capture_field_eq_none (L : List Char) (c : Char) (d : List Char) :
    (fieldRegexp L c).capture d = none ↔ ∀ p t, ¬ FieldAt L c d p t := by
  simp only [Regex.capture, Regex.FindStringSubmatch, Option.map_map, Option.map_eq_none',
    search_eq_none]
  constructor
  · rintro h p t ⟨q, hd, ht, hn⟩
    have := h p (L ++ t ++ c :: q) (by simp [hd, List.append_assoc])
    exact (run_field_eq_nil L c _).1 this ⟨t, q, rfl, ht, hn⟩
  · intro h p s hps
    rw [run_field_eq_nil]
    rintro ⟨t, q, rfl, ht, hn⟩
    exact h p t ⟨q, by simp [hps, List.append_assoc], ht, hn⟩

theorem accepts_cat (a b : Regex) (s q : List Char) :
    Accepts (.cat a b) s q ↔ ∃ m, Accepts a s m ∧ Accepts b m q := by
  simp only [Accepts, run_cat, List.mem_flatMap, List.mem_map]
  constructor
  · rintro ⟨r, ⟨x, hx, y, hy, rfl⟩, rfl⟩
    exact ⟨x.rest, ⟨x, hx, rfl⟩, ⟨y, hy, rfl⟩⟩
  · rintro ⟨m, ⟨x, hx, rfl⟩, ⟨y, hy, rfl⟩⟩
    exact ⟨x.andThen y, ⟨x, hx, y, hy, rfl⟩, rfl⟩

theorem accepts_str (L s q : List Char) : Accepts (.str L) s q ↔ s = L ++ q := by
  simp only [Accepts, run_str]
  constructor
  · rintro ⟨r, hr, rfl⟩
    by_cases hL : L <+: s
    · simp only [hL, if_true, List.mem_singleton] at hr
      subst hr
      obtain ⟨s1, rfl⟩ := hL
      simp
    · simp [hL] at hr
  · rintro rfl
    exact ⟨⟨L, none, q⟩, by simp, rfl⟩

theorem accepts_lit (c : Char) (s q : List Char) : Accepts (.lit c) s q ↔ s = c :: q := by
  cases s with
  | nil => simp [Accepts, Regex.run]
  | cons x xs =>
    simp only [Accepts, run_lit_cons]
    constructor
    · rintro ⟨r, hr, rfl⟩
      by_cases hx : x = c
      · simp only [hx, if_true, List.mem_singleton] at hr
        subst hr; simp [hx]
      · simp [hx] at hr
    · intro h
      simp only [List.cons.injEq] at h
      obtain ⟨rfl, rfl⟩ := h
      exact ⟨⟨[x], none, xs⟩, by simp, rfl⟩

theorem accepts_starLazy_any (s q : List Char) :
    Accepts (.starLazy .any) s q ↔ ∃ u, s = u ++ q ∧ '\n' ∉ u := by
  simp only [Accepts, run_starLazy_any, mem_lazyAny]
  constructor
  · rintro ⟨r, ⟨u, hu, hn, -, -⟩, rfl⟩
    exact ⟨u, hu, hn⟩
  · rintro ⟨u, hu, hn⟩
    exact ⟨⟨u, none, q⟩, ⟨u, hu, hn, rfl, rfl⟩, rfl⟩

theorem run_ne_nil_iff (re : Regex) (s : List Char) : re.run s ≠ [] ↔ ∃ q, Accepts re s q := by
  constructor
  · intro h
    obtain ⟨r, hr⟩ := List.exists_mem_of_ne_nil _ h
    exact ⟨r.rest, r, hr, rfl⟩
  · rintro ⟨q, r, hr, -⟩ h
    rw [h] at hr
    simp at hr

theorem matchString_iff (re : Regex) (d : List Char) :
    re.MatchString d = true ↔ ∃ p s q, d = p ++ s ∧ Accepts re s q := by
  rw [Regex.MatchString, Option.isSome_iff_ne_none, Ne, search_eq_none]
  constructor
  · intro h
    by_contra hc
    apply h
    intro p s hps
    by_contra hne
    obtain ⟨q, hq⟩ := (run_ne_nil_iff re s).1 hne
    exact hc ⟨p, s, q, hps, hq⟩
  · rintro ⟨p, s, q, hps, hq⟩ h
    exact (run_ne_nil_iff re s).2 ⟨q, hq⟩ (h p s hps)

theorem matchString_roadworks (d : List Char) :
    roadworksRegexp.MatchString d = true ↔ RoadworksLine d := by
  rw [matchString_iff, RoadworksLine]
  simp only [roadworksRegexp, accepts_cat, accepts_str, accepts_lit, accepts_starLazy_any]
  constructor
  · rintro ⟨p, s, q, rfl, m1, rfl, m2, ⟨u, rfl, hu⟩, m3, rfl, m4, ⟨v, rfl, hv⟩, rfl⟩
    exact ⟨p, u, v, q, by simp [List.append_assoc], hu, hv⟩
  · rintro ⟨p, u, v, q, rfl, hu, hv⟩
    exact ⟨p, _, q, by simp only [List.append_assoc], _, rfl, _, ⟨u, rfl, hu⟩, _, rfl,
      _, ⟨v, rfl, hv⟩, rfl⟩

/-! ## Properties of the grouping loop -/

theorem replaceAll_newline (d : List Char) :
    ReplaceAll d "\n".toList "<br>".toList = format d := by
  unfold ReplaceAll format
  induction d with
  | nil => rfl
  | cons c s ih =>
    by_cases hc : c = '\n'
    · subst hc
      simp only [replaceFrom, List.flatMap_cons]
      simpa using ih
    · have h1 : List.isPrefixOf "\n".toList (c :: s) = false := by
        simp [List.isPrefixOf, Ne.symm hc]
      simp only [replaceFrom, h1, List.flatMap_cons, hc, if_false]
      simpa using ih

theorem groupStep_admitted (roads : Roads) (d k : List Char) (h : Admitted d k) :
    groupStep roads d = roads.assign k (roads.index k ++ [format d]) := by
  obtain ⟨h1, h2, h3⟩ := h
  unfold Regex.capture at h1 h3
  unfold groupStep
  cases hs : statusRegexp.FindStringSubmatch d with
  | none => simp [hs] at h1
  | some st =>
    cases hl : locationRegexp.FindStringSubmatch d with
    | none => simp [hl] at h3
    | some loc =>
      simp only [hs, hl, Option.map_some', Option.some.injEq] at h1 h3
      have hc1 : ¬ (st.getD 1 [] ≠ "Currently Active".toList ∨
          roadworksRegexp.MatchString d = true) := by
        rw [h1, h2]; simp
      simp only [if_neg hc1, h3, replaceAll_newline]

theorem groupStep_rejected (roads : Roads) (d : List Char) (h : ∀ k, ¬ Admitted d k) :
    groupStep roads d = roads := by
  unfold groupStep
  cases hs : statusRegexp.FindStringSubmatch d with
  | none => rfl
  | some st =>
    simp only
    split
    · rfl
    · rename_i hc
      cases hl : locationRegexp.FindStringSubmatch d with
      | none => rfl
      | some loc =>
        exfalso
        simp only [not_or, ne_eq, not_not, Bool.not_eq_true] at hc
        exact h (loc.getD 1 []) ⟨by rw [Regex.capture, hs, Option.map_some', hc.1], hc.2,
          by rw [Regex.capture, hl, Option.map_some']⟩

theorem admitted_unique (d k1 k2 : List Char) (h1 : Admitted d k1) (h2 : Admitted d k2) :
    k1 = k2 := by
  have := h1.2.2.symm.trans h2.2.2
  simpa using this

theorem groupStep_index (roads : Roads) (d k : List Char) :
    (groupStep roads d).index k =
      roads.index k ++ if Admitted d k then [format d] else [] := by
  by_cases h : ∃ k1, Admitted d k1
  · obtain ⟨k1, hk1⟩ := h
    rw [groupStep_admitted roads d k1 hk1]
    by_cases hk : k = k1
    · subst hk
      simp [Roads.index, Roads.assign, hk1]
    · have : ¬ Admitted d k := fun h2 => hk (admitted_unique d k k1 h2 hk1)
      simp [Roads.index, Roads.assign, hk, this]
  · have h1 : ∀ k, ¬ Admitted d k := fun k hk => h ⟨k, hk⟩
    rw [groupStep_rejected roads d h1]
    simp [h1 k]

theorem groupStep_key (roads : Roads) (d k : List Char) :
    (groupStep roads d k).isSome = ((roads k).isSome || decide (Admitted d k)) := by
  by_cases h : ∃ k1, Admitted d k1
  · obtain ⟨k1, hk1⟩ := h
    rw [groupStep_admitted roads d k1 hk1]
    by_cases hk : k = k1
    · subst hk
      simp [Roads.assign, hk1]
    · have : ¬ Admitted d k := fun h2 => hk (admitted_unique d k k1 h2 hk1)
      simp [Roads.assign, hk, this]
  · have h1 : ∀ k, ¬ Admitted d k := fun k hk => h ⟨k, hk⟩
    rw [groupStep_rejected roads d h1]
    simp [h1 k]

theorem foldl_groupStep_index {Time : Type} (entries : List (entry Time)) (roads : Roads)
    (k : List Char) :
    (entries.foldl (fun roads e => groupStep roads e.Description) roads).index k =
      roads.index k ++
        (entries.filter fun e => decide (Admitted e.Description k)).map
          fun e => format e.Description := by
  induction entries generalizing roads with
  | nil => simp
  | cons e es ih =>
    rw [List.foldl_cons, ih, groupStep_index]
    by_cases h : Admitted e.Description k <;> simp [h, List.filter_cons]

theorem foldl_groupStep_key {Time : Type} (entries : List (entry Time)) (roads : Roads)
    (k : List Char) :
    ((entries.foldl (fun roads e => groupStep roads e.Description) roads) k).isSome =
      ((roads k).isSome || entries.any fun e => decide (Admitted e.Description k)) := by
  induction entries generalizing roads with
  | nil => simp
  | cons e es ih =>
    rw [List.foldl_cons, ih, groupStep_key]
    simp [Bool.or_assoc]

theorem first_occurrence (P r p1 z : List Char) (x : Char) (h : P ++ r = p1 ++ x :: z)
    (hx : x ∉ P) : P.length ≤ p1.length := by
  induction P generalizing p1 with
  | nil => simp
  | cons a P1 ih =>
    cases p1 with
    | nil =>
      simp at h
      exact absurd (by simp [h.1]) hx
    | cons b p2 =>
      simp at h
      have := ih p2 h.2 (fun hm => hx (by simp [hm]))
      simpa using this

theorem group_isSome_iff {Time : Type} (entries : List (entry Time)) (k : List Char) :
    (group entries k).isSome = true ↔ ∃ e ∈ entries, Admitted e.Description k := by
  have h := foldl_groupStep_key entries Roads.make k
  unfold group
  rw [h]
  simp [Roads.make]

/-! ## The claims about the grouping loop -/

/-- C1: for every sequence of entries and every location `k`, the sequence
stored under `k` by the grouping loop is the list, in feed order and with
repetitions kept, of the formatted descriptions (every newline replaced by
`<br>`, nothing else changed) of the entries whose status capture is
`Currently Active`, whose description does not match the roadworks pattern
and whose location capture is `k`. -/
theorem C1_group_sequence {Time : Type} (entries : List (entry Time)) (k : List Char) :
    (group entries).index k =
      (entries.filter fun e => decide
          (statusRegexp.capture e.Description = some "Currently Active".toList ∧
            roadworksRegexp.MatchString e.Description = false ∧
            locationRegexp.capture e.Description = some k)).map
        fun e => e.Description.flatMap fun c => if c = '\n' then "<br>".toList else [c] := by
  exact foldl_groupStep_index entries Roads.make k

/-- C7: a location `k` is a key of the map built by the grouping loop exactly
when some entry of the sequence passed the filter with location `k`; no key
maps to an empty sequence; a sequence without an admitted entry, the empty
sequence among them, gives the empty map. -/
theorem C7_group_keys {Time : Type} (entries : List (entry Time)) :
    (∀ k, (group entries k).isSome = true ↔ ∃ e ∈ entries, Admitted e.Description k) ∧
      (∀ k, group entries k ≠ some []) ∧
      ((∀ e ∈ entries, ∀ k, ¬ Admitted e.Description k) → ∀ k, group entries k = none) ∧
      (∀ k, group ([] : List (entry Time)) k = none) := by
  have hkey := group_isSome_iff entries
  refine ⟨hkey, ?_, ?_, fun k => rfl⟩
  · intro k hk
    obtain ⟨e, he, hadm⟩ := (hkey k).1 (by simp [hk])
    have h := foldl_groupStep_index entries Roads.make k
    have h1 : (group entries).index k = [] := by simp [Roads.index, hk]
    unfold group at h1
    rw [h1] at h
    have h2 : format e.Description ∈
        Roads.make.index k ++ (entries.filter fun e => decide (Admitted e.Description k)).map
          fun e => format e.Description := by
      apply List.mem_append_right
      exact List.mem_map.2 ⟨e, List.mem_filter.2 ⟨he, by simpa using hadm⟩, rfl⟩
    rw [← h] at h2
    simp at h2
  · intro hnone k
    have h1 : ¬ ((group entries k).isSome = true) := by
      rw [hkey]
      rintro ⟨e, he, hadm⟩
      exact hnone e he k hadm
    simpa using h1

/-- An entry sequence on which the hypothesis of the third part of C7 bears:
its only entry is a roadworks incident, and the map has no key. -/
theorem C7_group_keys_witness :
    (∀ k, group [(⟨[], [],
      "Location : The A1 Status : Currently Active. Reason : Roadworks on A1.\n".toList,
      ()⟩ : entry Unit)] k = none) :=
  (C7_group_keys [(⟨[], [],
      "Location : The A1 Status : Currently Active. Reason : Roadworks on A1.\n".toList,
      ()⟩ : entry Unit)]).2.2.1 (by
    intro e he k hadm
    simp only [List.mem_singleton] at he
    subst he
    exact absurd hadm.2.1 (by decide))

/-- C3, amended: an entry whose description has a line ended by a newline in
which `Reason : ` is followed later by `Roadworks` is excluded, whatever its
status and location: its iteration of the loop leaves the map as it was, and
the map of a sequence is the map of the sequence without that entry. -/
theorem C3_roadworks_excluded (d : List Char) (h : RoadworksLine d) :
    (∀ roads, groupStep roads d = roads) ∧
      ∀ (Time : Type) (pre post : List (entry Time)) (e : entry Time),
        e.Description = d → group (pre ++ e :: post) = group (pre ++ post) := by
  have h1 : ∀ roads, groupStep roads d = roads := by
    intro roads
    apply groupStep_rejected
    intro k hk
    have := (matchString_roadworks d).2 h
    rw [hk.2.1] at this
    cases this
  refine ⟨h1, ?_⟩
  intro Time pre post e he
  unfold group
  rw [List.foldl_append, List.foldl_append, List.foldl_cons, he, h1]

/-- The roadworks incident of the spec's end-to-end scenario: alone, it
yields the empty map. -/
theorem C3_roadworks_excluded_witness :
    RoadworksLine
        "Location : The A1 Status : Currently Active. Reason : Roadworks on A1.\n".toList ∧
      ∀ k, group [(⟨"X".toList, [],
        "Location : The A1 Status : Currently Active. Reason : Roadworks on A1.\n".toList,
        ()⟩ : entry Unit)] k = none := by
  have hr : RoadworksLine
      "Location : The A1 Status : Currently Active. Reason : Roadworks on A1.\n".toList :=
    ⟨"Location : The A1 Status : Currently Active. ".toList, [], " on A1.".toList, [],
      by decide, by decide, by decide⟩
  refine ⟨hr, fun k => ?_⟩
  have h := (C3_roadworks_excluded _ hr).2 Unit [] [] ⟨"X".toList, [],
    "Location : The A1 Status : Currently Active. Reason : Roadworks on A1.\n".toList, ()⟩ rfl
  simp only [List.nil_append] at h
  rw [h]
  rfl

/-- C3 as stated fails: a description whose only line holds `Reason : ` and
then `Roadworks`, but does not end in a newline, is admitted into group
`A1`. -/
theorem C3_counterexample :
    ReasonLineNamesRoadworks
        "Location : The A1 Status : Currently Active. Reason : Roadworks on A1.".toList ∧
      group [(⟨"X".toList, [],
        "Location : The A1 Status : Currently Active. Reason : Roadworks on A1.".toList,
        ()⟩ : entry Unit)] "A1".toList =
        some ["Location : The A1 Status : Currently Active. Reason : Roadworks on A1.".toList] := by
  refine ⟨⟨[], "Location : The A1 Status : Currently Active. ".toList, [], " on A1.".toList, [],
    by decide, by decide, by decide, by decide⟩, ?_⟩
  decide

/-- C8, amended: the status is the capture `t` at the leftmost place where the
label `Status : ` is followed by a non-empty text on one line and then a
period; `t` is the first character after the label, whatever it is, followed
by the text up to the next period.  The status is unset exactly when the label
is nowhere followed by a non-empty text on one line and then a period. -/
theorem C8_status_capture (d : List Char) :
    (∀ t, statusRegexp.capture d = some t ↔
        ∃ p, FieldAt "Status : ".toList '.' d p t ∧ '.' ∉ t.tail ∧
          ∀ p1 t1, FieldAt "Status : ".toList '.' d p1 t1 → p.length ≤ p1.length) ∧
      (statusRegexp.capture d = none ↔ ∀ p t, ¬ FieldAt "Status : ".toList '.' d p t) :=
  ⟨fun t => capture_field_eq_some _ _ d t, capture_field_eq_none _ _ d⟩

/-- The incident of the spec's end-to-end scenario: the label comes first at
offset 18, and the status is `Currently Active`. -/
theorem C8_status_capture_witness :
    statusRegexp.capture
        "Location : The A1 Status : Currently Active. Reason : Accident.\n".toList =
      some "Currently Active".toList :=
  ((C8_status_capture
      "Location : The A1 Status : Currently Active. Reason : Accident.\n".toList).1
    "Currently Active".toList).2
    ⟨"Location : The A1 ".toList,
      ⟨" Reason : Accident.\n".toList, by decide, by decide, by decide⟩, by decide,
      fun p1 t1 ⟨q1, h, _, _⟩ =>
        first_occurrence "Location : The A1 ".toList
          "Status : Currently Active. Reason : Accident.\n".toList p1
          ("tatus : ".toList ++ t1 ++ '.' :: q1) 'S'
          (Eq.trans (by decide) (h.trans (by simp [List.append_assoc]))) (by decide)⟩

/-- C8 as stated fails: in `Status : .` the label is followed by a period, yet
the status is unset; in `Status : a` + newline + `b.` the text up to the next
period spans two lines, and the status is unset. -/
theorem C8_counterexample :
    (statusRegexp.capture "Status : .".toList = none ∧
        textAfterLabel "Status : ".toList '.' "Status : .".toList = some []) ∧
      (statusRegexp.capture "Status : a\nb.".toList = none ∧
        textAfterLabel "Status : ".toList '.' "Status : a\nb.".toList = some "a\nb".toList) := by
  decide

/-- C9, amended: the location is the capture `t` at the leftmost place where
the phrase `Location : The ` is followed by a non-empty text on one line and
then a space; `t` is the first character after the phrase, whatever it is,
followed by the text up to the next space.  The location is unset exactly
when the phrase is nowhere followed by a non-empty text on one line and then
a space. -/
theorem C9_location_capture (d : List Char) :
    (∀ t, locationRegexp.capture d = some t ↔
        ∃ p, FieldAt "Location : The ".toList ' ' d p t ∧ ' ' ∉ t.tail ∧
          ∀ p1 t1, FieldAt "Location : The ".toList ' ' d p1 t1 → p.length ≤ p1.length) ∧
      (locationRegexp.capture d = none ↔
        ∀ p t, ¬ FieldAt "Location : The ".toList ' ' d p t) :=
  ⟨fun t => capture_field_eq_some _ _ d t, capture_field_eq_none _ _ d⟩

/-- The incident of the spec's end-to-end scenario: the phrase opens the
description, and the location is `A1`. -/
theorem C9_location_capture_witness :
    locationRegexp.capture
        "Location : The A1 Status : Currently Active. Reason : Accident.\n".toList =
      some "A1".toList :=
  ((C9_location_capture
      "Location : The A1 Status : Currently Active. Reason : Accident.\n".toList).1
    "A1".toList).2
    ⟨[], ⟨"Status : Currently Active. Reason : Accident.\n".toList, by decide, by decide,
      by decide⟩, by decide, fun p1 _ _ => Nat.zero_le p1.length⟩

/-- C9 as stated fails: in `Location : The  M1 ` the phrase is followed at
once by a space, and the location is ` M1`, not the empty text; in
`Location : The M1` + newline + `closed ` the text up to the next space spans
two lines, and the location is unset. -/
theorem C9_counterexample :
    (locationRegexp.capture "Location : The  M1 ".toList = some " M1".toList ∧
        textAfterLabel "Location : The ".toList ' ' "Location : The  M1 ".toList = some []) ∧
      (locationRegexp.capture "Location : The M1\nclosed ".toList = none ∧
        textAfterLabel "Location : The ".toList ' ' "Location : The M1\nclosed ".toList =
          some "M1\nclosed".toList) := by
  decide

theorem not_roadworksLine_of_no_newline (d : List Char) (h : '\n' ∉ d) : ¬ RoadworksLine d := by
  rintro ⟨p, u, v, q, rfl, -, -⟩
  apply h
  simp

theorem admitted_of_fields (d X pS pL : List Char)
    (hS : FieldAt "Status : ".toList '.' d pS "Currently Active".toList)
    (hS1 : ∀ p1 t1, FieldAt "Status : ".toList '.' d p1 t1 → pS.length ≤ p1.length)
    (hR : ¬ RoadworksLine d)
    (hL : FieldAt "Location : The ".toList ' ' d pL X)
    (hL1 : ∀ p1 t1, FieldAt "Location : The ".toList ' ' d p1 t1 → pL.length ≤ p1.length)
    (hXs : ' ' ∉ X.tail) : Admitted d X := by
  refine ⟨?_, ?_, ?_⟩
  · rw [statusRegexp_eq, capture_field_eq_some]
    exact ⟨pS, hS, by decide, hS1⟩
  · cases hm : roadworksRegexp.MatchString d with
    | false => rfl
    | true => exact absurd ((matchString_roadworks d).1 hm) hR
  · rw [locationRegexp_eq, capture_field_eq_some]
    exact ⟨pL, hL, hXs, hL1⟩

/-- C2, amended: let the leftmost place of an entry's description where the
label `Status : ` is followed by a non-empty text on one line and then a
period hold `Status : Currently Active.`; let no line ended by a newline hold
`Reason : ` and later `Roadworks`; and let the leftmost place where the phrase
`Location : The ` is followed by a non-empty text on one line and then a
space hold `Location : The X `, with `X` free of spaces.  Then the grouping
loop puts the entry's formatted description in the sequence of group `X`. -/
theorem C2_active_entry_grouped {Time : Type} (entries : List (entry Time)) (e : entry Time)
    (he : e ∈ entries) (X pS pL : List Char)
    (hS : FieldAt "Status : ".toList '.' e.Description pS "Currently Active".toList)
    (hS1 : ∀ p1 t1, FieldAt "Status : ".toList '.' e.Description p1 t1 →
      pS.length ≤ p1.length)
    (hR : ¬ RoadworksLine e.Description)
    (hL : FieldAt "Location : The ".toList ' ' e.Description pL X)
    (hL1 : ∀ p1 t1, FieldAt "Location : The ".toList ' ' e.Description p1 t1 →
      pL.length ≤ p1.length)
    (hXs : ' ' ∉ X) :
    format e.Description ∈ (group entries).index X := by
  have hadm := admitted_of_fields e.Description X pS pL hS hS1 hR hL hL1
    (fun h => hXs (List.mem_of_mem_tail h))
  have h := foldl_groupStep_index entries Roads.make X
  unfold group
  rw [h]
  apply List.mem_append_right
  exact List.mem_map.2 ⟨e, List.mem_filter.2 ⟨he, by simpa using hadm⟩, rfl⟩

/-- The incident of the spec's end-to-end scenario meets the conditions of C2
with `X = A1`, and alone it yields exactly the map with the one key `A1` and
the one formatted description.  A description whose first `Status : ` label
is followed by a text that runs over the end of its line, and only then by
`Status : Currently Active.`, meets the conditions too. -/
theorem C2_active_entry_grouped_witness :
    (format "Location : The A1 Status : Currently Active. Reason : Accident.\n".toList ∈
        (group [(⟨"X".toList, [],
          "Location : The A1 Status : Currently Active. Reason : Accident.\n".toList,
          ()⟩ : entry Unit)]).index "A1".toList ∧
      ∀ k, group [(⟨"X".toList, [],
          "Location : The A1 Status : Currently Active. Reason : Accident.\n".toList,
          ()⟩ : entry Unit)] k =
        if k = "A1".toList then
          some ["Location : The A1 Status : Currently Active. Reason : Accident.<br>".toList]
        else none) ∧
      format "Status : see below\nStatus : Currently Active. Location : The A1 ".toList ∈
        (group [(⟨"X".toList, [],
          "Status : see below\nStatus : Currently Active. Location : The A1 ".toList,
          ()⟩ : entry Unit)]).index "A1".toList := by
  have hnoR : ∀ d : List Char, ¬ "Roadworks".toList <:+: d → ¬ RoadworksLine d := by
    rintro d hd ⟨p, u, v, q, h, -, -⟩
    apply hd
    rw [h]
    exact ⟨p ++ "Reason : ".toList ++ u, v ++ '\n' :: q, by simp [List.append_assoc]⟩
  refine ⟨⟨?_, ?_⟩, ?_⟩
  · exact C2_active_entry_grouped
      [(⟨"X".toList, [],
        "Location : The A1 Status : Currently Active. Reason : Accident.\n".toList,
        ()⟩ : entry Unit)] _ (List.mem_singleton.2 rfl) "A1".toList
      "Location : The A1 ".toList []
      ⟨" Reason : Accident.\n".toList, by decide, by decide, by decide⟩
      (fun p1 t1 ⟨q1, h, _, _⟩ => first_occurrence "Location : The A1 ".toList
        "Status : Currently Active. Reason : Accident.\n".toList p1
        ("tatus : ".toList ++ t1 ++ '.' :: q1) 'S'
        (Eq.trans (by decide) (h.trans (by simp [List.append_assoc]))) (by decide))
      (hnoR _ (by decide))
      ⟨"Status : Currently Active. Reason : Accident.\n".toList, by decide, by decide,
        by decide⟩
      (fun p1 _ _ => Nat.zero_le p1.length) (by decide)
  · intro k
    have hadm : Admitted
        "Location : The A1 Status : Currently Active. Reason : Accident.\n".toList
        "A1".toList := by decide
    show groupStep Roads.make
      "Location : The A1 Status : Currently Active. Reason : Accident.\n".toList k = _
    rw [groupStep_admitted _ _ _ hadm]
    by_cases hk : k = "A1".toList
    · subst hk
      simp only [Roads.assign, if_true]
      exact congrArg some (by decide)
    · simp only [Roads.assign, hk, if_false]
      rfl
  · have hs : (fieldRegexp "Status : ".toList '.').capture
        "Status : see below\nStatus : Currently Active. Location : The A1 ".toList =
        some "Currently Active".toList := by decide
    have hl : (fieldRegexp "Location : The ".toList ' ').capture
        "Status : see below\nStatus : Currently Active. Location : The A1 ".toList =
        some "A1".toList := by decide
    obtain ⟨pS, hS, -, hS1⟩ := (capture_field_eq_some _ _ _ _).1 hs
    obtain ⟨pL, hL, -, hL1⟩ := (capture_field_eq_some _ _ _ _).1 hl
    exact C2_active_entry_grouped
      [(⟨"X".toList, [],
        "Status : see below\nStatus : Currently Active. Location : The A1 ".toList,
        ()⟩ : entry Unit)] _ (List.mem_singleton.2 rfl) "A1".toList pS pL hS hS1
      (hnoR _ (by decide)) hL hL1 (by decide)

/-- C2 as stated fails.  In the first description the text
`Status : Currently Active.` comes after an earlier status, and the entry is
dropped.  In the second the road name `A1` + newline + `M6` is free of
spaces, and the entry is dropped.  In the third the phrase is there for
`M6`, but the entry goes to the group of the earlier `A1`. -/
theorem C2_counterexample :
    (LooksActiveAt
        "Location : The A1 Status : Cleared. Was Status : Currently Active. ".toList
        "A1".toList ∧
      group [(⟨[], [],
        "Location : The A1 Status : Cleared. Was Status : Currently Active. ".toList,
        ()⟩ : entry Unit)] "A1".toList = none) ∧
    (LooksActiveAt "Status : Currently Active. Location : The A1\nM6 ".toList
        "A1\nM6".toList ∧
      group [(⟨[], [], "Status : Currently Active. Location : The A1\nM6 ".toList,
        ()⟩ : entry Unit)] "A1\nM6".toList = none) ∧
    (LooksActiveAt
        "Status : Currently Active. Location : The A1 near Location : The M6 ".toList
        "M6".toList ∧
      group [(⟨[], [],
        "Status : Currently Active. Location : The A1 near Location : The M6 ".toList,
        ()⟩ : entry Unit)] "M6".toList = none) := by
  have hno : ∀ d : List Char, ¬ "Roadworks".toList <:+: d → ¬ ReasonLineNamesRoadworks d := by
    rintro d hd ⟨p, a, u, b, q, h, -, -, -⟩
    apply hd
    rw [h]
    exact ⟨p ++ a ++ "Reason : ".toList ++ u, b ++ q, by simp [List.append_assoc]⟩
  refine ⟨⟨⟨⟨"Location : The A1 Status : Cleared. Was ".toList, " ".toList, by decide⟩,
      hno _ (by decide), ⟨[], "Status : Cleared. Was Status : Currently Active. ".toList,
        by decide⟩, by decide, by decide⟩, by decide⟩,
    ⟨⟨⟨[], " Location : The A1\nM6 ".toList, by decide⟩,
      hno _ (by decide), ⟨"Status : Currently Active. ".toList, [], by decide⟩,
        by decide, by decide⟩, by decide⟩,
    ⟨⟨⟨[], " Location : The A1 near Location : The M6 ".toList, by decide⟩,
      hno _ (by decide), ⟨"Status : Currently Active. Location : The A1 near ".toList, [],
        by decide⟩, by decide, by decide⟩, by decide⟩⟩

/-- C10: every key of the map built by the grouping loop is non-empty, has no
newline and has no space after its first character; and every text of that
shape is the key of some description, so nothing else is constrained. -/
theorem C10_key_shape (k : List Char) :
    (∀ (Time : Type) (entries : List (entry Time)), (group entries k).isSome = true →
        k ≠ [] ∧ '\n' ∉ k ∧ ' ' ∉ k.tail) ∧
      (k ≠ [] ∧ '\n' ∉ k ∧ ' ' ∉ k.tail →
        ∃ d, ∀ (Time : Type) (e : entry Time), e.Description = d →
          group [e] k = some [format d]) := by
  constructor
  · intro Time entries hk
    obtain ⟨e, -, hadm⟩ := (group_isSome_iff entries k).1 hk
    have h3 := hadm.2.2
    rw [locationRegexp_eq, capture_field_eq_some] at h3
    obtain ⟨p, ⟨q, -, hne, hnl⟩, hsp, -⟩ := h3
    exact ⟨hne, hnl, hsp⟩
  · rintro ⟨hne, hnl, hsp⟩
    refine ⟨"Status : Currently Active. Location : The ".toList ++ k ++ [' '], ?_⟩
    intro Time e he
    have hadm : Admitted ("Status : Currently Active. Location : The ".toList ++ k ++ [' ']) k := by
      refine admitted_of_fields _ k [] "Status : Currently Active. ".toList
        ⟨" Location : The ".toList ++ k ++ [' '], by simp, by decide, by decide⟩
        (fun p1 _ _ => Nat.zero_le p1.length) ?_ ⟨[], by simp, hne, hnl⟩ ?_ hsp
      · apply not_roadworksLine_of_no_newline
        simp [hnl]
      · rintro p1 t1 ⟨q1, h, -, -⟩
        exact first_occurrence "Status : Currently Active. ".toList
          ("Location : The ".toList ++ k ++ [' ']) p1
          ("ocation : The ".toList ++ t1 ++ ' ' :: q1) 'L'
          (Eq.trans (by simp) (h.trans (by simp [List.append_assoc]))) (by decide)
    show groupStep Roads.make e.Description k = _
    rw [he, groupStep_admitted _ _ _ hadm]
    simp [Roads.assign, Roads.index, Roads.make]

/-- A road name with a path separator: it has the shape of a key, and it is
the key of the map of some description. -/
theorem C10_key_shape_witness :
    '/' ∈ "M6/A1".toList ∧
      ∃ d, ∀ (Time : Type) (e : entry Time), e.Description = d →
        group [e] "M6/A1".toList = some [format d] :=
  ⟨by decide, (C10_key_shape "M6/A1".toList).2 ⟨by decide, by decide, by decide⟩⟩

/-! ## Properties of the feed decoder -/

theorem dropWhile_append_of_all (p : Char → Bool) (l t : List Char) (h : ∀ c ∈ l, p c = true) :
    (l ++ t).dropWhile p = t.dropWhile p := by
  induction l with
  | nil => rfl
  | cons a l ih =>
    have ha : p a = true := h a (by simp)
    simp only [List.cons_append, List.dropWhile_cons, ha, if_true]
    exact ih fun c hc => h c (by simp [hc])

theorem dropWhile_append_of_ne_nil (p : Char → Bool) (s r : List Char)
    (h : s.dropWhile p ≠ []) : (s ++ r).dropWhile p = s.dropWhile p ++ r := by
  induction s with
  | nil => simp at h
  | cons a s ih =>
    by_cases ha : p a = true
    · simp only [List.cons_append, List.dropWhile_cons, ha, if_true] at h ⊢
      exact ih h
    · simp [List.dropWhile_cons, ha]

theorem dropWhile_eq_nil_of_all (p : Char → Bool) (l : List Char) (h : ∀ c ∈ l, p c = true) :
    l.dropWhile p = [] := by
  have := dropWhile_append_of_all p l [] h
  simpa using this

theorem dropWhile_all_of_eq_nil (p : Char → Bool) (l : List Char) (h : l.dropWhile p = []) :
    ∀ c ∈ l, p c = true := by
  induction l with
  | nil => simp
  | cons a l ih =>
    by_cases ha : p a = true
    · simp only [List.dropWhile_cons, ha, if_true] at h
      intro c hc
      rcases List.mem_cons.1 hc with rfl | hc
      · exact ha
      · exact ih h c hc
    · simp [List.dropWhile_cons, ha] at h

theorem trimSpace_pad (l s r : List Char) (hl : ∀ c ∈ l, isSpace c = true)
    (hr : ∀ c ∈ r, isSpace c = true) : TrimSpace (l ++ s ++ r) = TrimSpace s := by
  unfold TrimSpace
  rw [List.append_assoc, dropWhile_append_of_all isSpace l _ hl]
  by_cases hs : s.dropWhile isSpace = []
  · have hall : ∀ c ∈ s ++ r, isSpace c = true := by
      intro c hc
      rcases List.mem_append.1 hc with h | h
      · exact dropWhile_all_of_eq_nil isSpace s hs c h
      · exact hr c h
    rw [dropWhile_eq_nil_of_all isSpace _ hall, hs]
  · rw [dropWhile_append_of_ne_nil isSpace s r hs, List.reverse_append,
      dropWhile_append_of_all isSpace r.reverse _ (fun c hc => hr c (List.mem_reverse.1 hc))]

theorem parseItems_error_iff {Time XmlError : Type}
    (afterWeekDay : List Char → Except (List Char) Time) (items : List item)
    (ret : List (entry Time)) :
    (@parseItems Time XmlError afterWeekDay items ret).2.isSome = true ↔
      ∃ it ∈ items, ∃ err, timeParse afterWeekDay (TrimSpace it.PubDate) = .error err := by
  induction items generalizing ret with
  | nil => simp [parseItems]
  | cons it items ih =>
    simp only [parseItems]
    cases hp : timeParse afterWeekDay (TrimSpace it.PubDate) with
    | error err =>
      simp only [Option.isSome_some, true_iff]
      exact ⟨it, by simp, err, hp⟩
    | ok date =>
      simp only [ih]
      constructor
      · rintro ⟨it1, h1, err, h2⟩
        exact ⟨it1, by simp [h1], err, h2⟩
      · rintro ⟨it1, h1, err, h2⟩
        rcases List.mem_cons.1 h1 with rfl | h1
        · rw [hp] at h2; cases h2
        · exact ⟨it1, h1, err, h2⟩

theorem parseItems_error_nil {Time XmlError : Type}
    (afterWeekDay : List Char → Except (List Char) Time) (items : List item)
    (ret : List (entry Time))
    (h : (@parseItems Time XmlError afterWeekDay items ret).2.isSome = true) :
    (@parseItems Time XmlError afterWeekDay items ret).1 = [] := by
  induction items generalizing ret with
  | nil => simp [parseItems] at h
  | cons it items ih =>
    simp only [parseItems] at h ⊢
    cases hp : timeParse afterWeekDay (TrimSpace it.PubDate) with
    | error err => rfl
    | ok date =>
      simp only [hp] at h
      exact ih _ h

theorem parseItems_ok {Time XmlError : Type}
    (afterWeekDay : List Char → Except (List Char) Time) (items : List item)
    (ret : List (entry Time))
    (h : (@parseItems Time XmlError afterWeekDay items ret).2 = none) :
    ∃ es, (@parseItems Time XmlError afterWeekDay items ret).1 = ret ++ es ∧
      List.Forall₂ (fun it e => e.EntryTitle = it.Title ∧ e.Link = it.Link ∧
        e.Description = it.Description ∧
        timeParse afterWeekDay (TrimSpace it.PubDate) = .ok e.Time) items es := by
  induction items generalizing ret with
  | nil => exact ⟨[], by simp [parseItems], List.Forall₂.nil⟩
  | cons it items ih =>
    simp only [parseItems] at h ⊢
    cases hp : timeParse afterWeekDay (TrimSpace it.PubDate) with
    | error err => simp [hp] at h
    | ok date =>
      simp only [hp] at h
      obtain ⟨es, h1, h2⟩ := ih _ h
      refine ⟨toEntry it date :: es, ?_, List.Forall₂.cons ⟨rfl, rfl, rfl, hp⟩ h2⟩
      rw [h1]
      simp [toEntry]

theorem parseItems_congr {Time XmlError : Type}
    (afterWeekDay : List Char → Except (List Char) Time) (items items1 : List item)
    (ret : List (entry Time))
    (h : List.Forall₂ (fun it it1 => it1.Title = it.Title ∧ it1.Link = it.Link ∧
      it1.Description = it.Description ∧ TrimSpace it1.PubDate = TrimSpace it.PubDate)
      items items1) :
    @parseItems Time XmlError afterWeekDay items1 ret =
      @parseItems Time XmlError afterWeekDay items ret := by
  induction h generalizing ret with
  | nil => rfl
  | cons hab _ ih =>
    obtain ⟨h1, h2, h3, h4⟩ := hab
    simp only [parseItems, h1, h2, h3, h4]
    split
    · rfl
    · exact ih _

theorem parseItems_error_congr {Time XmlError : Type}
    (afterWeekDay : List Char → Except (List Char) Time) (items items1 : List item)
    (ret ret1 : List (entry Time))
    (h : List.Forall₂ (fun it it1 => it1.PubDate = it.PubDate) items items1) :
    (@parseItems Time XmlError afterWeekDay items1 ret1).2 =
      (@parseItems Time XmlError afterWeekDay items ret).2 := by
  induction h generalizing ret ret1 with
  | nil => rfl
  | cons hab _ ih =>
    simp only [parseItems, hab]
    split
    · rfl
    · exact ih _ _

theorem lookup_nil (tab : List (List Char)) (h : ∀ v ∈ tab, v ≠ []) : lookup tab [] = none := by
  induction tab with
  | nil => rfl
  | cons v tab ih =>
    have hv : v ≠ [] := h v (by simp)
    have hlen : ¬ (([] : List Char).length ≥ v.length) := by
      cases v with
      | nil => exact absurd rfl hv
      | cons a v => simp
    simp only [lookup]
    rw [if_neg (fun hc => hlen hc.1)]
    exact ih fun w hw => h w (by simp [hw])

theorem timeParse_nil {Time : Type} (afterWeekDay : List Char → Except (List Char) Time) :
    timeParse afterWeekDay [] = .error [] := by
  unfold timeParse
  rw [lookup_nil shortDayNames (by decide)]

theorem decodeField_missing (name : List Char) (x : XmlItem)
    (h : ∀ ch ∈ x.children, ch.1 ≠ name) : decodeField name x = [] := by
  unfold decodeField
  have : (x.children.filter fun ch => decide (ch.1 = name)) = [] := by
    rw [List.filter_eq_nil_iff]
    intro ch hch
    simpa using h ch hch
  rw [this]
  rfl

/-! ## The claims about the feed decoder -/

/-- C4: on a well-formed document, `parseFeed` returns an error together with
a nil entry list exactly when the date of some item, white space trimmed,
fails to parse; whenever it returns an error the entry list is nil, so the
entries of the items before the bad one are not returned. -/
theorem C4_decode_all_or_nothing {Time XmlError : Type}
    (readItems : List Char → Except XmlError (List XmlItem))
    (afterWeekDay : List Char → Except (List Char) Time) (feed : List Char) (f : rss)
    (h : Unmarshal readItems feed = .ok f) :
    (((parseFeed readItems afterWeekDay feed).2.isSome = true ∧
          (parseFeed readItems afterWeekDay feed).1 = []) ↔
        ∃ it ∈ f.Items, ∃ err, timeParse afterWeekDay (TrimSpace it.PubDate) = .error err) ∧
      ((parseFeed readItems afterWeekDay feed).2.isSome = true →
        (parseFeed readItems afterWeekDay feed).1 = []) := by
  have hpf : parseFeed readItems afterWeekDay feed =
      @parseItems Time XmlError afterWeekDay f.Items [] := by
    unfold parseFeed
    rw [h]
  rw [hpf]
  refine ⟨⟨fun hh => (parseItems_error_iff afterWeekDay f.Items []).1 hh.1, fun hh => ?_⟩,
    parseItems_error_nil afterWeekDay f.Items []⟩
  have h1 := (@parseItems_error_iff Time XmlError afterWeekDay f.Items []).2 hh
  exact ⟨h1, parseItems_error_nil afterWeekDay f.Items [] h1⟩

/-- A feed of two items, the second with the date `yesterday`: the decoder
returns an error and no entry, not even the one of the first item. -/
theorem C4_decode_all_or_nothing_witness :
    Unmarshal (fun _ => (Except.ok
        [⟨[("title".toList, "X".toList),
            ("pubDate".toList, "Mon, 02 Jan 2006 15:04:05 GMT".toList)]⟩,
          ⟨[("title".toList, "Y".toList), ("pubDate".toList, "yesterday".toList)]⟩] :
        Except Unit (List XmlItem))) [] =
      .ok ⟨[⟨"X".toList, "Mon, 02 Jan 2006 15:04:05 GMT".toList, [], []⟩,
        ⟨"Y".toList, "yesterday".toList, [], []⟩]⟩ ∧
    ((parseFeed (fun _ => (Except.ok
        [⟨[("title".toList, "X".toList),
            ("pubDate".toList, "Mon, 02 Jan 2006 15:04:05 GMT".toList)]⟩,
          ⟨[("title".toList, "Y".toList), ("pubDate".toList, "yesterday".toList)]⟩] :
        Except Unit (List XmlItem))) (fun _ => (Except.ok () : Except (List Char) Unit))
        []).2.isSome = true ∧
      (parseFeed (fun _ => (Except.ok
        [⟨[("title".toList, "X".toList),
            ("pubDate".toList, "Mon, 02 Jan 2006 15:04:05 GMT".toList)]⟩,
          ⟨[("title".toList, "Y".toList), ("pubDate".toList, "yesterday".toList)]⟩] :
        Except Unit (List XmlItem))) (fun _ => (Except.ok () : Except (List Char) Unit))
        []).1 = []) :=
  ⟨rfl, (C4_decode_all_or_nothing (fun _ => (Except.ok
        [⟨[("title".toList, "X".toList),
            ("pubDate".toList, "Mon, 02 Jan 2006 15:04:05 GMT".toList)]⟩,
          ⟨[("title".toList, "Y".toList), ("pubDate".toList, "yesterday".toList)]⟩] :
        Except Unit (List XmlItem))) (fun _ => (Except.ok () : Except (List Char) Unit)) []
      ⟨[⟨"X".toList, "Mon, 02 Jan 2006 15:04:05 GMT".toList, [], []⟩,
        ⟨"Y".toList, "yesterday".toList, [], []⟩]⟩ rfl).1.2
    ⟨⟨"Y".toList, "yesterday".toList, [], []⟩, List.mem_cons_of_mem _ (List.mem_singleton.2 rfl),
      "yesterday".toList, rfl⟩⟩

/-- C5: when `parseFeed` succeeds on a document with the items `f.Items`, it
returns one entry for each item, in the same order, with the item's title,
link and description and with the time parsed from the item's date, white
space trimmed; and a document whose items differ only by white space around
their dates gives the same result. -/
theorem C5_decode_entries {Time XmlError : Type}
    (readItems : List Char → Except XmlError (List XmlItem))
    (afterWeekDay : List Char → Except (List Char) Time) (feed : List Char) (f : rss)
    (h : Unmarshal readItems feed = .ok f)
    (hok : (parseFeed readItems afterWeekDay feed).2 = none) :
    List.Forall₂ (fun it e => e.EntryTitle = it.Title ∧ e.Link = it.Link ∧
        e.Description = it.Description ∧
        timeParse afterWeekDay (TrimSpace it.PubDate) = .ok e.Time)
        f.Items (parseFeed readItems afterWeekDay feed).1 ∧
      ∀ (feed1 : List Char) (f1 : rss), Unmarshal readItems feed1 = .ok f1 →
        List.Forall₂ (fun it it1 => it1.Title = it.Title ∧ it1.Link = it.Link ∧
          it1.Description = it.Description ∧
          ∃ l r, (∀ c ∈ l, isSpace c = true) ∧ (∀ c ∈ r, isSpace c = true) ∧
            it1.PubDate = l ++ it.PubDate ++ r) f.Items f1.Items →
        parseFeed readItems afterWeekDay feed1 = parseFeed readItems afterWeekDay feed := by
  have hpf : parseFeed readItems afterWeekDay feed =
      @parseItems Time XmlError afterWeekDay f.Items [] := by
    unfold parseFeed
    rw [h]
  constructor
  · rw [hpf] at hok ⊢
    obtain ⟨es, h1, h2⟩ := parseItems_ok afterWeekDay f.Items [] hok
    rw [h1]
    simpa using h2
  · intro feed1 f1 h1 hrel
    have hpf1 : parseFeed readItems afterWeekDay feed1 =
        @parseItems Time XmlError afterWeekDay f1.Items [] := by
      unfold parseFeed
      rw [h1]
    rw [hpf, hpf1]
    apply parseItems_congr
    refine List.Forall₂.imp ?_ hrel
    rintro it it1 ⟨ht, hl, hd, l, r, hl1, hr1, hp⟩
    exact ⟨ht, hl, hd, by rw [hp, trimSpace_pad l _ r hl1 hr1]⟩

/-- The feed of the spec's end-to-end scenario, its date padded with white
space: the decoder succeeds with the one entry of the item. -/
theorem C5_decode_entries_witness :
    (parseFeed (fun _ => (Except.ok
        [⟨[("title".toList, "X".toList),
            ("pubDate".toList, "\n  Mon, 02 Jan 2006 15:04:05 GMT \t".toList),
            ("description".toList, "Location : The A1 ".toList)]⟩] :
        Except Unit (List XmlItem))) (fun _ => (Except.ok () : Except (List Char) Unit))
        []).2 = none ∧
    List.Forall₂ (fun (it : item) (e : entry Unit) =>
        e.EntryTitle = it.Title ∧ e.Link = it.Link ∧ e.Description = it.Description ∧
        timeParse (fun _ => (Except.ok () : Except (List Char) Unit))
          (TrimSpace it.PubDate) = .ok e.Time)
      [⟨"X".toList, "\n  Mon, 02 Jan 2006 15:04:05 GMT \t".toList, [],
        "Location : The A1 ".toList⟩]
      (parseFeed (fun _ => (Except.ok
        [⟨[("title".toList, "X".toList),
            ("pubDate".toList, "\n  Mon, 02 Jan 2006 15:04:05 GMT \t".toList),
            ("description".toList, "Location : The A1 ".toList)]⟩] :
        Except Unit (List XmlItem))) (fun _ => (Except.ok () : Except (List Char) Unit))
        []).1 :=
  ⟨rfl, (C5_decode_entries (fun _ => (Except.ok
        [⟨[("title".toList, "X".toList),
            ("pubDate".toList, "\n  Mon, 02 Jan 2006 15:04:05 GMT \t".toList),
            ("description".toList, "Location : The A1 ".toList)]⟩] :
        Except Unit (List XmlItem))) (fun _ => (Except.ok () : Except (List Char) Unit))
        [] ⟨[⟨"X".toList, "\n  Mon, 02 Jan 2006 15:04:05 GMT \t".toList, [],
        "Location : The A1 ".toList⟩]⟩ rfl rfl).1⟩

/-- C6, amended: in a well-formed document an item that lacks a sub-field is
decoded with that sub-field as empty text; whether `parseFeed` returns an
error, and which, depends on the dates of the items alone, so a missing
title, link or description never causes an error; an item that lacks its
date makes `parseFeed` return an error, the empty text being no date. -/
theorem C6_missing_fields {Time XmlError : Type}
    (readItems : List Char → Except XmlError (List XmlItem))
    (afterWeekDay : List Char → Except (List Char) Time) (feed : List Char)
    (xs : List XmlItem) (h : readItems feed = .ok xs) :
    (∀ x ∈ xs,
        ((∀ ch ∈ x.children, ch.1 ≠ "title".toList) → (decodeItem x).Title = []) ∧
        ((∀ ch ∈ x.children, ch.1 ≠ "pubDate".toList) → (decodeItem x).PubDate = []) ∧
        ((∀ ch ∈ x.children, ch.1 ≠ "link".toList) → (decodeItem x).Link = []) ∧
        ((∀ ch ∈ x.children, ch.1 ≠ "description".toList) →
          (decodeItem x).Description = [])) ∧
      (∀ (feed1 : List Char) (xs1 : List XmlItem), readItems feed1 = .ok xs1 →
        List.Forall₂ (fun x x1 => (decodeItem x1).PubDate = (decodeItem x).PubDate) xs xs1 →
        (parseFeed readItems afterWeekDay feed1).2 =
          (parseFeed readItems afterWeekDay feed).2) ∧
      ((∃ x ∈ xs, ∀ ch ∈ x.children, ch.1 ≠ "pubDate".toList) →
        (parseFeed readItems afterWeekDay feed).2.isSome = true) := by
  have hpf : ∀ (fd : List Char) (ys : List XmlItem), readItems fd = .ok ys →
      parseFeed readItems afterWeekDay fd =
        @parseItems Time XmlError afterWeekDay (ys.map decodeItem) [] := by
    intro fd ys hy
    unfold parseFeed Unmarshal
    rw [hy]
  refine ⟨fun x _ => ⟨decodeField_missing _ x, decodeField_missing _ x,
    decodeField_missing _ x, decodeField_missing _ x⟩, ?_, ?_⟩
  · intro feed1 xs1 h1 hrel
    rw [hpf feed xs h, hpf feed1 xs1 h1]
    apply parseItems_error_congr
    rw [List.forall₂_map_left_iff, List.forall₂_map_right_iff]
    exact hrel
  · rintro ⟨x, hx, hmiss⟩
    rw [hpf feed xs h, parseItems_error_iff]
    refine ⟨decodeItem x, List.mem_map.2 ⟨x, hx, rfl⟩, [], ?_⟩
    have hd : (decodeItem x).PubDate = [] := decodeField_missing _ x hmiss
    rw [hd]
    exact timeParse_nil afterWeekDay

/-- A feed whose one item has a title, a link and a description but no date:
the item is decoded with the empty date and the decoder returns an error. -/
theorem C6_missing_fields_witness :
    (decodeItem ⟨[("title".toList, "X".toList), ("link".toList, "http://x".toList),
        ("description".toList, "D".toList)]⟩).PubDate = [] ∧
    (parseFeed (fun _ => (Except.ok
        [⟨[("title".toList, "X".toList), ("link".toList, "http://x".toList),
          ("description".toList, "D".toList)]⟩] : Except Unit (List XmlItem)))
        (fun _ => (Except.ok () : Except (List Char) Unit)) []).2.isSome = true :=
  ⟨rfl, (C6_missing_fields (fun _ => (Except.ok
        [⟨[("title".toList, "X".toList), ("link".toList, "http://x".toList),
          ("description".toList, "D".toList)]⟩] : Except Unit (List XmlItem)))
        (fun _ => (Except.ok () : Except (List Char) Unit)) [] _ rfl).2.2
    ⟨_, List.mem_singleton.2 rfl, by decide⟩⟩

/-- C6 as stated fails: the one item of this feed lacks nothing but its date,
and whatever the rest of the date layout accepts, `parseFeed` returns an
error. -/
theorem C6_counterexample :
    ¬ ∃ afterWeekDay : List Char → Except (List Char) Unit,
      (parseFeed (fun _ => (Except.ok
        [⟨[("title".toList, "X".toList), ("link".toList, "http://x".toList),
          ("description".toList, "D".toList)]⟩] : Except Unit (List XmlItem)))
        afterWeekDay []).2 = none := by
  rintro ⟨afterWeekDay, h⟩
  change (match timeParse afterWeekDay (TrimSpace []) with
    | .error err => (([] : List (entry Unit)), some (FeedError.parsingPubDate err))
    | .ok date => parseItems afterWeekDay [] ([] ++ [toEntry ⟨"X".toList, [],
        "http://x".toList, "D".toList⟩ date])).2 = none at h
  have ht : TrimSpace [] = [] := rfl
  rw [ht, timeParse_nil] at h
  cases h

end Traffic
